import Mathlib

/-!
Shallow embedding of the LocalZero client orchestration layer:
the useDataStream hook (row cache, targeted validation, mutations,
stage machine) and the data worker chunked full validation pass.
Source: app/src/hooks/useDataStream.ts (the revision with applySuggestion /
updateCell / single-flight batch validation) and app/src/workers/data.worker.ts.
-/

namespace LocalZero

/-- Column descriptor, from ColumnSchema in types.ts: display name and the
currently detected or assigned type (an opaque string label here). -/
structure ColumnSchema where
  name : String
  detected_type : String
  deriving DecidableEq, Repr

/-- A JS Map with Nat keys, embedded as an association list whose keys are kept
unique by construction (mapSet removes the old binding). -/
abbrev NatMap (α : Type) := List (Nat × α)

/-- Map.set: install the binding for k, removing any previous one. Bindings are
read only through List.lookup below, so the position of k is immaterial. -/
def mapSet {α : Type} (m : NatMap α) (k : Nat) (v : α) : NatMap α :=
  (k, v) :: m.filter (fun p => p.1 ≠ k)

/-- Map.delete: drop the binding for k if present. -/
def mapDelete {α : Type} (m : NatMap α) (k : Nat) : NatMap α :=
  m.filter (fun p => p.1 ≠ k)

theorem lookup_filter_ne {α : Type} (m : NatMap α) (k j : Nat) (h : j ≠ k) :
    (m.filter (fun p => p.1 ≠ k)).lookup j = m.lookup j := by
  induction m with
  | nil => rfl
  | cons p rest ih =>
    obtain ⟨a, b⟩ := p
    by_cases hak : a = k
    · subst hak
      have hja : (j == a) = false := by simp [h]
      simp only [ne_eq, decide_not] at ih
      simp [List.filter_cons, List.lookup, hja, ih]
    · by_cases hja : j = a
      · subst hja
        simp [List.filter_cons, hak, List.lookup]
      · have hjaf : (j == a) = false := by simp [hja]
        simp only [ne_eq, decide_not] at ih
        simp [List.filter_cons, hak, List.lookup, hjaf, ih]

theorem lookup_filter_self {α : Type} (m : NatMap α) (k : Nat) :
    (m.filter (fun p => p.1 ≠ k)).lookup k = none := by
  induction m with
  | nil => rfl
  | cons p rest ih =>
    obtain ⟨a, b⟩ := p
    by_cases hak : a = k
    · subst hak
      simp only [ne_eq, decide_not] at ih
      simpa [List.filter_cons] using ih
    · have hkaf : (k == a) = false := by simp [Ne.symm hak]
      simp only [ne_eq, decide_not] at ih
      simpa [List.filter_cons, hak, List.lookup, hkaf] using ih

theorem lookup_mapSet_self {α : Type} (m : NatMap α) (k : Nat) (v : α) :
    (mapSet m k v).lookup k = some v := by
  simp [mapSet, List.lookup]

theorem lookup_mapSet_ne {α : Type} (m : NatMap α) (k j : Nat) (v : α) (h : j ≠ k) :
    (mapSet m k v).lookup j = m.lookup j := by
  have hj : (j == k) = false := by simp [h]
  simp only [mapSet, List.lookup, hj]
  exact lookup_filter_ne m k j h

theorem lookup_mapDelete_self {α : Type} (m : NatMap α) (k : Nat) :
    (mapDelete m k).lookup k = none :=
  lookup_filter_self m k

theorem lookup_mapDelete_ne {α : Type} (m : NatMap α) (k j : Nat) (h : j ≠ k) :
    (mapDelete m k).lookup j = m.lookup j :=
  lookup_filter_ne m k j h

/-- The four stages of the session, SCHEMA, INGESTION, PROCESSING and STUDIO
(part_002 line 5), spelled as Lean constructor names. -/
inductive AppStage where
  | SchemaStage
  | IngestionStage
  | ProcessingStage
  | StudioStage
  deriving DecidableEq, Repr

/-- The mutable state of the useDataStream hook that the claims are about:
the React state cells (stage, schema, initialSchema, rowCount, errors,
pendingValidation, dataVersion) together with the refs (rowCache,
inflightChunks, isBatchValidating). pendingValidation is a set of column
indices, errors maps a column index to the set of invalid row indices, and
rowCache maps a row index to its column-aligned string values. -/
structure StreamState where
  stage : AppStage
  schema : List ColumnSchema
  initialSchema : List ColumnSchema
  rowCount : Nat
  errors : NatMap (List Nat)
  pendingValidation : List Nat
  dataVersion : Nat
  rowCache : NatMap (List String)
  inflightChunks : List Nat
  isBatchValidating : Bool
  deriving DecidableEq, Repr

/-- getRow: pure synchronous read of the row cache (part_002 line 118). -/
def getRow (s : StreamState) (index : Nat) : Option (List String) :=
  s.rowCache.lookup index

/-- One keyed row record as returned by the engine: field name to value. -/
abbrev RowObj := List (String × String)

/-- Align a keyed row record with the current schema column order, defaulting
missing fields to the empty string (part_002 lines 158-161). -/
def normalizeRow (schema : List ColumnSchema) (rowObj : RowObj) : List String :=
  schema.map (fun col => (rowObj.lookup col.name).getD "")

/-- Accumulator of the missing-range scan loop of fetchRows (part_002 lines
124-141): the closed ranges so far plus the start and length of the currently
open run of uncached indices. curStart is none when no run is open. -/
structure RangeAcc where
  ranges : List (Nat × Nat)
  curStart : Option Nat
  curCount : Nat
  deriving Repr

/-- Loop body of the missing-range scan for one window index (part_002 lines
128-141): a cached index closes the open run, an uncached index opens or
extends it. -/
def rangeStep (cache : NatMap (List String)) (acc : RangeAcc) (i : Nat) : RangeAcc :=
  if (cache.lookup i).isSome then
    match acc.curStart with
    | some st => { ranges := acc.ranges ++ [(st, acc.curCount)], curStart := none, curCount := 0 }
    | none => acc
  else
    match acc.curStart with
    | some _ => { acc with curCount := acc.curCount + 1 }
    | none => { acc with curStart := some i, curCount := 1 }

/-- The window indices start, start+1, ... scanned by fetchRows: the loop runs
to start+limit and breaks at rowCount (part_002 lines 128-129). -/
def windowIndices (start limit rowCount : Nat) : List Nat :=
  (List.range' start limit).takeWhile (fun i => i < rowCount)

/-- Flush of the still open run after the scan loop (part_002 line 142). -/
def flushRanges (acc : RangeAcc) : List (Nat × Nat) :=
  match acc.curStart with
  | some st => acc.ranges ++ [(st, acc.curCount)]
  | none => acc.ranges

/-- missingRanges: the maximal contiguous runs of uncached indices inside the
requested window, as (start, length) pairs in increasing order, with the still
open run flushed after the loop (part_002 lines 124-142). -/
def missingRanges (cache : NatMap (List String)) (start limit rowCount : Nat) :
    List (Nat × Nat) :=
  flushRanges ((windowIndices start limit rowCount).foldl (rangeStep cache) ⟨[], none, 0⟩)

/-- Fill the cache with the rows returned for one fetched range (part_002
lines 156-164): row i of the response is cached at index rangeStart + i after
normalization against the current schema. -/
def cacheRows (schema : List ColumnSchema) (cache : NatMap (List String))
    (rangeStart : Nat) (rows : List RowObj) : NatMap (List String) :=
  rows.enum.foldl (fun c p => mapSet c (rangeStart + p.1) (normalizeRow schema p.2)) cache

/-- Loop body of the per-range fetch loop (part_002 lines 144-170): a range
whose start offset already has an in-flight fetch is skipped; otherwise the
engine call is issued (recorded in the second component), and on success the
returned rows are cached; a rejected fetch is caught and caches nothing. The
in-flight entry added for the call is removed again by the finally clause, so
inflightChunks is unchanged across the body. -/
def fetchStep (engine : Nat → Nat → Option (List RowObj))
    (acc : StreamState × List (Nat × Nat)) (r : Nat × Nat) :
    StreamState × List (Nat × Nat) :=
  if r.1 ∈ acc.1.inflightChunks then acc
  else
    let calls := acc.2 ++ [r]
    match engine r.1 r.2 with
    | none => (acc.1, calls)
    | some rows =>
      ({ acc.1 with rowCache := cacheRows acc.1.schema acc.1.rowCache r.1 rows }, calls)

/-- fetchRows (part_002 lines 120-172): compute the missing ranges of the
window and fetch each one. Returns the post state together with the list of
engine getRows calls issued, as (start, limit) pairs. engine st li is the
outcome of the call: some rows when resolved, none when rejected. -/
def fetchRows (engine : Nat → Nat → Option (List RowObj)) (s : StreamState)
    (start limit : Nat) : StreamState × List (Nat × Nat) :=
  if s.rowCount = 0 then (s, [])
  else (missingRanges s.rowCache start limit s.rowCount).foldl (fetchStep engine) (s, [])

/-- Per-column loop of validateColumnsSafe (part_002 lines 255-269), with the
two accumulators made explicit: the staged results map (only a nonempty
invalid-row set is stored, line 265) and the validate-column engine calls
issued so far, as (column index, type label) pairs. A column index outside the
schema issues no call (line 257); a rejected engine call (outcome none) is
caught per column and stages nothing (line 268). -/
def stageColumns (ev : Nat → String → Option (List Nat)) (schema : List ColumnSchema) :
    List Nat → NatMap (List Nat) → List (Nat × String) → NatMap (List Nat) × List (Nat × String)
  | [], results, calls => (results, calls)
  | colIdx :: rest, results, calls =>
    match schema.get? colIdx with
    | none => stageColumns ev schema rest results calls
    | some col =>
      match ev colIdx col.detected_type with
      | none => stageColumns ev schema rest results (calls ++ [(colIdx, col.detected_type)])
      | some invalid =>
        if 0 < invalid.length then
          stageColumns ev schema rest (mapSet results colIdx invalid)
            (calls ++ [(colIdx, col.detected_type)])
        else
          stageColumns ev schema rest results (calls ++ [(colIdx, col.detected_type)])

/-- The single setErrors commit of validateColumnsSafe (part_002 lines
271-276): delete every requested column from the previous map, then install
every staged replacement. results has unique keys, so the fold order over it
is immaterial for lookup. -/
def commitErrors (prev : NatMap (List Nat)) (cols : List Nat)
    (results : NatMap (List Nat)) : NatMap (List Nat) :=
  results.foldl (fun m p => mapSet m p.1 p.2) (cols.foldl mapDelete prev)

/-- validateColumnsSafe (part_002 lines 247-281). If the single-flight latch
isBatchValidating is already held, the request is dropped: no engine call, no
state change. Otherwise the latch is taken, every requested column is
validated sequentially, the staged replacements are committed by one setErrors
call, and the finally clause releases the latch. Returns the post state and
the validate-column engine calls issued. ev colIdx ty is the outcome of one
engine call: some invalid-row list when resolved, none when rejected. -/
def validateColumnsSafe (ev : Nat → String → Option (List Nat)) (s : StreamState)
    (cols : List Nat) : StreamState × List (Nat × String) :=
  if s.isBatchValidating then (s, [])
  else
    let staged := stageColumns ev s.schema cols [] []
    ({ s with errors := commitErrors s.errors cols staged.1, isBatchValidating := false },
      staged.2)

/-- The values of the errors state an outside observer can read at each
suspension point of one batch: one observation per awaited validate-column
call, then one after the batch returns. The loop body writes only the local
results map; the errors state is written by the single setErrors call after
the loop (part_002 lines 253-276), so every in-loop observation is the
pre-batch map. A dropped request suspends nowhere and observes nothing. -/
def batchErrorTrace (ev : Nat → String → Option (List Nat)) (s : StreamState)
    (cols : List Nat) : List (NatMap (List Nat)) :=
  if s.isBatchValidating then []
  else
    (cols.filterMap (fun c => (s.schema.get? c).map (fun _ => s.errors)))
      ++ [(validateColumnsSafe ev s cols).1.errors]

/-- runBatchValidation (part_002 lines 283-288): no-op when the pending set is
empty; otherwise run the targeted pass over the pending columns and then
unconditionally reset the pending set to empty. -/
def runBatchValidation (ev : Nat → String → Option (List Nat)) (s : StreamState) :
    StreamState × List (Nat × String) :=
  if s.pendingValidation.length = 0 then (s, [])
  else
    let run := validateColumnsSafe ev s s.pendingValidation
    ({ run.1 with pendingValidation := [] }, run.2)

/-- applyCorrection (part_002 lines 301-323). engineFix is the outcome of the
APPLY_CORRECTION call (some changed-cell count when resolved, none when
rejected). On rejection the catch block ends the operation with no state
change. On success: targeted revalidation of the column, then the column is
dropped from the pending set, the whole row cache is cleared and the data
version is bumped. -/
def applyCorrection (engineFix : Option Nat) (ev : Nat → String → Option (List Nat))
    (s : StreamState) (colIdx : Nat) : StreamState :=
  match engineFix with
  | none => s
  | some _ =>
    let s1 := (validateColumnsSafe ev s [colIdx]).1
    { s1 with
      pendingValidation := s1.pendingValidation.filter (fun c => c ≠ colIdx),
      rowCache := [],
      dataVersion := s1.dataVersion + 1 }

/-- applySuggestion (part_002 lines 343-366): same sequencing as
applyCorrection with the APPLY_SUGGESTION engine call. -/
def applySuggestion (engineApply : Option Nat) (ev : Nat → String → Option (List Nat))
    (s : StreamState) (colIdx : Nat) : StreamState :=
  match engineApply with
  | none => s
  | some _ =>
    let s1 := (validateColumnsSafe ev s [colIdx]).1
    { s1 with
      pendingValidation := s1.pendingValidation.filter (fun c => c ≠ colIdx),
      rowCache := [],
      dataVersion := s1.dataVersion + 1 }

/-- updateCell (part_002 lines 368-388). engineUpd is the outcome of the
UPDATE_CELL call. On rejection the catch rethrows with no state change. On
success: targeted revalidation of the column, then only the edited row is
deleted from the cache (line 382) and the data version is bumped. The pending
set is not touched. -/
def updateCell (engineUpd : Option Unit) (ev : Nat → String → Option (List Nat))
    (s : StreamState) (rowIdx colIdx : Nat) : StreamState :=
  match engineUpd with
  | none => s
  | some _ =>
    let s1 := (validateColumnsSafe ev s [colIdx]).1
    { s1 with
      rowCache := mapDelete s1.rowCache rowIdx,
      dataVersion := s1.dataVersion + 1 }

/-- The events that can reach the hook and touch the stage state: the explicit
UI actions (goToIngestion at part_002 line 212, confirmSchema at line 290) and
the worker messages handled by onmessage (lines 53-112). -/
inductive HookEvent where
  | uiGoToIngestion
  | uiConfirmSchema
  | workerInitComplete
  | workerRequestComplete
  | workerValidationUpdate
  | workerValidationComplete
  | workerFault
  deriving DecidableEq, Repr

/-- Whether the event is an explicit UI action, as opposed to an unsolicited
worker message. -/
def isUiEvent : HookEvent → Bool
  | .uiGoToIngestion => true
  | .uiConfirmSchema => true
  | _ => false

/-- The stage transitions of the hook: goToIngestion sets INGESTION (part_002
line 213), confirmSchema sets PROCESSING (line 291), and the onmessage handler
sets the Studio stage on VALIDATION_COMPLETE (lines 99-100). No other code path calls
setStage. -/
def stageStep (st : AppStage) : HookEvent → AppStage
  | .uiGoToIngestion => .IngestionStage
  | .uiConfirmSchema => .ProcessingStage
  | .workerValidationComplete => .StudioStage
  | _ => st

/-- A message posted by the worker to the main thread during the full
validation pass (data.worker.ts lines 28-71). The worker posts exactly two
shapes there: VALIDATION_UPDATE carrying the folded per-chunk error map (line
56, only when the chunk produced at least one violation) and a bare
VALIDATION_COMPLETE (line 68). The optional numeric fields exist so that the
absence of any rowsProcessed / totalRows / rowsPerSec payload in what the
worker actually posts is expressible; the source never sets them. -/
structure PostedMsg where
  type : String
  errorsPayload : Option (NatMap (List Nat)) := none
  rowsProcessed : Option Nat := none
  totalRows : Option Nat := none
  rowsPerSec : Option Nat := none
  deriving DecidableEq, Repr

/-- The VALIDATION_UPDATE message for one chunk (data.worker.ts line 56). -/
def validationUpdateMsg (errors : NatMap (List Nat)) : PostedMsg :=
  { type := "VALIDATION_UPDATE", errorsPayload := some errors }

/-- The completion signal (data.worker.ts line 68): type only, no payload. -/
def validationCompleteMsg : PostedMsg :=
  { type := "VALIDATION_COMPLETE" }

/-- Fold a flat list of (row, col) violation pairs into a column-to-rows map
(data.worker.ts lines 38-45): errors.get(col).add(row), creating the set on
first use. -/
def foldChunkErrors (flat : List (Nat × Nat)) : NatMap (List Nat) :=
  flat.foldl
    (fun m p =>
      match m.lookup p.2 with
      | some rows => mapSet m p.2 (if p.1 ∈ rows then rows else rows ++ [p.1])
      | none => mapSet m p.2 [p.1])
    []

/-- Result of one full validation pass: the validate-chunk engine calls issued
as (currentStart, chunkSize) argument pairs, and the messages posted. -/
structure PassResult where
  calls : List (Nat × Nat)
  msgs : List PostedMsg
  deriving DecidableEq, Repr

/-- processValidationChunk (data.worker.ts lines 28-71), iterated: validate
one chunk with validate_chunk(currentStart, chunkSize), fold the flat result,
post VALIDATION_UPDATE when the chunk had violations, advance currentStart by
chunkSize, and either reschedule (currentStart < totalRows) or post the
completion signal. vc is the engine validate-chunk function. The fuel
argument only bounds the recursion; runValidationPass below supplies enough
fuel that the zero-fuel branch is never reached when chunkSize is positive. -/
def processValidationChunk (vc : Nat → Nat → List (Nat × Nat))
    (totalRows chunkSize : Nat) : Nat → Nat → PassResult
  | 0, _ => ⟨[], []⟩
  | fuel + 1, currentStart =>
    let errors := foldChunkErrors (vc currentStart chunkSize)
    let chunkMsgs := if 0 < errors.length then [validationUpdateMsg errors] else []
    if currentStart + chunkSize < totalRows then
      let rest := processValidationChunk vc totalRows chunkSize fuel (currentStart + chunkSize)
      ⟨(currentStart, chunkSize) :: rest.calls, chunkMsgs ++ rest.msgs⟩
    else
      ⟨[(currentStart, chunkSize)], chunkMsgs ++ [validationCompleteMsg]⟩

/-- One full validation pass from START_VALIDATION (data.worker.ts lines
100-109): currentStart begins at 0. totalRows + 1 chunks always suffice for a
positive chunkSize, so the fuel never runs out. The worker constant chunkSize
is 50000 (line 104); the claims instantiate it at 50. -/
def runValidationPass (vc : Nat → Nat → List (Nat × Nat))
    (totalRows chunkSize : Nat) : PassResult :=
  processValidationChunk vc totalRows chunkSize (totalRows + 1) 0

/-- Modelled from the spec: the engine validate_chunk call is implemented in
the sandboxed compute engine (the Rust/Wasm core), whose source is not part
of this repository snapshot. Section 6 of the spec gives its contract:
validateChunk(start, count) returns a flat sequence of (row, col) violation
pairs for the rows of the chunk, and the full pass partitions the first
totalRows rows, so a chunk reaching past the end of the dataset covers only
the rows that exist. invalid r c is the per-cell validation verdict,
numCols the schema width. -/
def spec_validate_chunk (invalid : Nat → Nat → Bool) (totalRows numCols : Nat)
    (start count : Nat) : List (Nat × Nat) :=
  ((List.range' start count).filter (fun r => r < totalRows)).flatMap
    (fun r => ((List.range numCols).filter (fun c => invalid r c)).map (fun c => (r, c)))

/-! Helper lemmas about the embedded operations. -/

theorem validateColumnsSafe_dataVersion (ev : Nat → String → Option (List Nat))
    (s : StreamState) (cols : List Nat) :
    (validateColumnsSafe ev s cols).1.dataVersion = s.dataVersion := by
  unfold validateColumnsSafe
  split <;> rfl

theorem validateColumnsSafe_rowCache (ev : Nat → String → Option (List Nat))
    (s : StreamState) (cols : List Nat) :
    (validateColumnsSafe ev s cols).1.rowCache = s.rowCache := by
  unfold validateColumnsSafe
  split <;> rfl

theorem validateColumnsSafe_pending (ev : Nat → String → Option (List Nat))
    (s : StreamState) (cols : List Nat) :
    (validateColumnsSafe ev s cols).1.pendingValidation = s.pendingValidation := by
  unfold validateColumnsSafe
  split <;> rfl

theorem validateColumnsSafe_dropped (ev : Nat → String → Option (List Nat))
    (s : StreamState) (cols : List Nat) (h : s.isBatchValidating = true) :
    validateColumnsSafe ev s cols = (s, []) := by
  simp [validateColumnsSafe, h]

theorem validateColumnsSafe_released (ev : Nat → String → Option (List Nat))
    (s : StreamState) (cols : List Nat) (h : s.isBatchValidating = false) :
    (validateColumnsSafe ev s cols).1.isBatchValidating = false := by
  simp [validateColumnsSafe, h]

theorem fetchStep_fields (engine : Nat → Nat → Option (List RowObj))
    (acc : StreamState × List (Nat × Nat)) (r : Nat × Nat) :
    (fetchStep engine acc r).1.inflightChunks = acc.1.inflightChunks
      ∧ (fetchStep engine acc r).1.dataVersion = acc.1.dataVersion := by
  unfold fetchStep
  split
  · exact ⟨rfl, rfl⟩
  · cases engine r.1 r.2 <;> exact ⟨rfl, rfl⟩

theorem fetchFold_calls (engine : Nat → Nat → Option (List RowObj)) (infl : List Nat) :
    ∀ (ranges : List (Nat × Nat)) (acc : StreamState × List (Nat × Nat)),
      acc.1.inflightChunks = infl →
      (ranges.foldl (fetchStep engine) acc).2
          = acc.2 ++ ranges.filter (fun r => r.1 ∉ infl)
        ∧ (ranges.foldl (fetchStep engine) acc).1.inflightChunks = infl
        ∧ (ranges.foldl (fetchStep engine) acc).1.dataVersion = acc.1.dataVersion := by
  intro ranges
  induction ranges with
  | nil => intro acc h; simpa using h
  | cons r rest ih =>
    intro acc h
    have hfields := fetchStep_fields engine acc r
    have hstep := ih (fetchStep engine acc r) (by rw [hfields.1, h])
    refine ⟨?_, hstep.2.1, by rw [List.foldl_cons, hstep.2.2, hfields.2]⟩
    rw [List.foldl_cons, hstep.1, List.filter_cons]
    by_cases hin : r.1 ∈ infl
    · have : fetchStep engine acc r = acc := by
        unfold fetchStep
        rw [if_pos (h ▸ hin)]
      simp [this, hin]
    · have hcalls : (fetchStep engine acc r).2 = acc.2 ++ [r] := by
        unfold fetchStep
        rw [if_neg (h ▸ hin)]
        cases engine r.1 r.2 <;> rfl
      simp [hcalls, hin]

theorem fetchRows_dataVersion (engine : Nat → Nat → Option (List RowObj))
    (s : StreamState) (start limit : Nat) :
    (fetchRows engine s start limit).1.dataVersion = s.dataVersion := by
  unfold fetchRows
  split
  · rfl
  · exact (fetchFold_calls engine s.inflightChunks _ (s, []) rfl).2.2

theorem runBatchValidation_dataVersion (ev : Nat → String → Option (List Nat))
    (s : StreamState) :
    (runBatchValidation ev s).1.dataVersion = s.dataVersion := by
  unfold runBatchValidation
  split
  · rfl
  · exact validateColumnsSafe_dataVersion ev s s.pendingValidation

/-- The engine calls recorded by the per-column loop: every requested column
that exists in the schema gets exactly one validate-column call, in request
order; columns outside the schema are skipped. -/
theorem stageColumns_calls (ev : Nat → String → Option (List Nat))
    (schema : List ColumnSchema) :
    ∀ (cols : List Nat) (results : NatMap (List Nat)) (calls : List (Nat × String)),
      (stageColumns ev schema cols results calls).2
        = calls ++ cols.filterMap
            (fun c => (schema.get? c).map (fun col => (c, col.detected_type))) := by
  intro cols
  induction cols with
  | nil => intro results calls; simp [stageColumns]
  | cons c rest ih =>
    intro results calls
    unfold stageColumns
    cases hget : schema.get? c with
    | none =>
      have hget2 : schema[c]? = none := by rw [← List.get?_eq_getElem?]; exact hget
      simp [hget, ih, List.filterMap_cons, hget2]
    | some col =>
      have hget2 : schema[c]? = some col := by rw [← List.get?_eq_getElem?]; exact hget
      cases hev : ev c col.detected_type with
      | none => simp [hget, hev, ih, List.filterMap_cons, hget2]
      | some invalid =>
        by_cases hlen : 0 < invalid.length
        · simp [hget, hev, hlen, ih, List.filterMap_cons, hget2]
        · simp [hget, hev, hlen, ih, List.filterMap_cons, hget2]

/-- A key not in the requested column list is never staged. -/
theorem stageColumns_lookup_not_mem (ev : Nat → String → Option (List Nat))
    (schema : List ColumnSchema) (k : Nat) :
    ∀ (cols : List Nat) (results : NatMap (List Nat)) (calls : List (Nat × String)),
      k ∉ cols →
      (stageColumns ev schema cols results calls).1.lookup k = results.lookup k := by
  intro cols
  induction cols with
  | nil => intro results calls _; rfl
  | cons c rest ih =>
    intro results calls hk
    have hkc : k ≠ c := fun h => hk (h ▸ List.mem_cons_self c rest)
    have hkrest : k ∉ rest := fun h => hk (List.mem_cons_of_mem c h)
    rcases hget : schema.get? c with _ | col
    · simp only [stageColumns, hget]
      exact ih results _ hkrest
    · rcases hev : ev c col.detected_type with _ | invalid
      · simp only [stageColumns, hget, hev]
        exact ih results _ hkrest
      · by_cases hlen : 0 < invalid.length
        · simp only [stageColumns, hget, hev, hlen, if_pos]
          rw [ih (mapSet results c invalid) _ hkrest, lookup_mapSet_ne _ _ _ _ hkc]
        · simp only [stageColumns, hget, hev, hlen, if_neg]
          exact ih results _ hkrest

/-- What one acquired batch stages for a requested column c that exists in the
schema, assuming the request list holds no duplicates: the engine result when
it resolved nonempty, otherwise nothing new. -/
theorem stageColumns_lookup_mem (ev : Nat → String → Option (List Nat))
    (schema : List ColumnSchema) (c : Nat) (col : ColumnSchema) :
    ∀ (cols : List Nat) (results : NatMap (List Nat)) (calls : List (Nat × String)),
      cols.Nodup → c ∈ cols → schema.get? c = some col →
      (stageColumns ev schema cols results calls).1.lookup c
        = match ev c col.detected_type with
          | some invalid => if 0 < invalid.length then some invalid else results.lookup c
          | none => results.lookup c := by
  intro cols
  induction cols with
  | nil => intro results calls _ hmem; exact absurd hmem (List.not_mem_nil c)
  | cons a rest ih =>
    intro results calls hnd hmem hget
    rcases List.mem_cons.mp hmem with hca | hcrest
    · subst hca
      have hnotrest : c ∉ rest := (List.nodup_cons.mp hnd).1
      rcases hev : ev c col.detected_type with _ | invalid
      · simp only [stageColumns, hget, hev]
        exact stageColumns_lookup_not_mem ev schema c rest results _ hnotrest
      · by_cases hlen : 0 < invalid.length
        · simp only [stageColumns, hget, hev, hlen, if_pos]
          rw [stageColumns_lookup_not_mem ev schema c rest _ _ hnotrest,
            lookup_mapSet_self]
        · simp only [stageColumns, hget, hev, hlen, if_neg]
          exact stageColumns_lookup_not_mem ev schema c rest results _ hnotrest
    · have hnd2 : rest.Nodup := (List.nodup_cons.mp hnd).2
      have hca : c ≠ a := fun h => (List.nodup_cons.mp hnd).1 (h ▸ hcrest)
      rcases hgeta : schema.get? a with _ | cola
      · simp only [stageColumns, hgeta]
        exact ih results _ hnd2 hcrest hget
      · rcases heva : ev a cola.detected_type with _ | invalida
        · simp only [stageColumns, hgeta, heva]
          exact ih results _ hnd2 hcrest hget
        · by_cases hlena : 0 < invalida.length
          · simp only [stageColumns, hgeta, heva, hlena, if_pos]
            rw [ih (mapSet results a invalida) _ hnd2 hcrest hget]
            rcases ev c col.detected_type with _ | invalid
            · exact lookup_mapSet_ne _ _ _ _ hca
            · by_cases hlen : 0 < invalid.length
              · simp [hlen]
              · simp only [hlen, if_neg]
                exact lookup_mapSet_ne _ _ _ _ hca
          · simp only [stageColumns, hgeta, heva, hlena, if_neg]
            exact ih results _ hnd2 hcrest hget

theorem lookup_none_of_not_mem_keys {α : Type} (m : NatMap α) (k : Nat)
    (h : k ∉ m.map Prod.fst) : m.lookup k = none := by
  induction m with
  | nil => rfl
  | cons p rest ih =>
    have hk : k ≠ p.1 := fun he => h (by simp [he])
    have hkf : (k == p.1) = false := by simp [hk]
    have : k ∉ rest.map Prod.fst := fun he => h (by simp [he])
    simp [List.lookup, hkf, ih this]

theorem mapSet_keys_nodup {α : Type} (m : NatMap α) (k : Nat) (v : α)
    (h : (m.map Prod.fst).Nodup) : ((mapSet m k v).map Prod.fst).Nodup := by
  refine List.nodup_cons.mpr ⟨?_, ?_⟩
  · intro hmem
    rcases List.mem_map.mp hmem with ⟨p, hp, hfst⟩
    have := List.of_mem_filter hp
    simp [hfst] at this
  · exact ((List.filter_sublist (l := m)).map Prod.fst).nodup h

/-- The staged results map always has duplicate-free keys. -/
theorem stageColumns_keys_nodup (ev : Nat → String → Option (List Nat))
    (schema : List ColumnSchema) :
    ∀ (cols : List Nat) (results : NatMap (List Nat)) (calls : List (Nat × String)),
      (results.map Prod.fst).Nodup →
      ((stageColumns ev schema cols results calls).1.map Prod.fst).Nodup := by
  intro cols
  induction cols with
  | nil => intro results calls h; exact h
  | cons c rest ih =>
    intro results calls h
    rcases hget : schema.get? c with _ | col
    · simp only [stageColumns, hget]
      exact ih results _ h
    · rcases hev : ev c col.detected_type with _ | invalid
      · simp only [stageColumns, hget, hev]
        exact ih results _ h
      · by_cases hlen : 0 < invalid.length
        · simp only [stageColumns, hget, hev, hlen, if_pos]
          exact ih _ _ (mapSet_keys_nodup results c invalid h)
        · simp only [stageColumns, hget, hev, hlen, if_neg]
          exact ih results _ h

theorem foldlSet_lookup_of_none {α : Type} (k : Nat) :
    ∀ (results : NatMap α) (base : NatMap α), results.lookup k = none →
      (results.foldl (fun m p => mapSet m p.1 p.2) base).lookup k = base.lookup k := by
  intro results
  induction results with
  | nil => intro base _; rfl
  | cons p rest ih =>
    intro base h
    have hk : k ≠ p.1 := by
      intro he
      simp [List.lookup, he] at h
    have hrest : rest.lookup k = none := by
      have hkf : (k == p.1) = false := by simp [hk]
      simpa [List.lookup, hkf] using h
    rw [List.foldl_cons, ih (mapSet base p.1 p.2) hrest, lookup_mapSet_ne _ _ _ _ hk]

theorem foldlSet_lookup_of_some {α : Type} (k : Nat) (v : α) :
    ∀ (results : NatMap α) (base : NatMap α), (results.map Prod.fst).Nodup →
      results.lookup k = some v →
      (results.foldl (fun m p => mapSet m p.1 p.2) base).lookup k = some v := by
  intro results
  induction results with
  | nil => intro base _ h; exact absurd h (by simp [List.lookup])
  | cons p rest ih =>
    intro base hnd h
    obtain ⟨a, w⟩ := p
    by_cases hk : k = a
    · subst hk
      have hv : w = v := by simpa [List.lookup] using h
      have hknot : k ∉ rest.map Prod.fst := by
        simpa using (List.nodup_cons.mp hnd).1
      rw [List.foldl_cons,
        foldlSet_lookup_of_none k rest _ (lookup_none_of_not_mem_keys rest k hknot)]
      simpa [lookup_mapSet_self] using hv
    · have hkf : (k == a) = false := by simp [hk]
      have hrest : rest.lookup k = some v := by simpa [List.lookup, hkf] using h
      rw [List.foldl_cons]
      exact ih (mapSet base a w) (by simpa using (List.nodup_cons.mp hnd).2) hrest

theorem foldlDelete_lookup (k : Nat) :
    ∀ (cols : List Nat) (prev : NatMap (List Nat)),
      (cols.foldl mapDelete prev).lookup k
        = if k ∈ cols then none else prev.lookup k := by
  intro cols
  induction cols with
  | nil => intro prev; simp
  | cons c rest ih =>
    intro prev
    rw [List.foldl_cons, ih (mapDelete prev c)]
    by_cases hk : k ∈ rest
    · simp [hk]
    · by_cases hkc : k = c
      · subst hkc
        simp [hk, lookup_mapDelete_self]
      · simp [hk, hkc, lookup_mapDelete_ne prev c k hkc]

theorem takeWhile_lt_range' (R : Nat) :
    ∀ (n a : Nat), (List.range' a n).takeWhile (fun i => i < R)
      = List.range' a (min n (R - a)) := by
  intro n
  induction n with
  | zero => intro a; simp
  | succ n ih =>
    intro a
    rw [List.range'_succ]
    by_cases ha : a < R
    · have h1 : R - a = (R - (a + 1)) + 1 := by omega
      have hcond : (decide (a < R)) = true := by simpa using ha
      rw [List.takeWhile_cons, hcond, if_pos rfl]
      rw [ih (a + 1), h1, Nat.succ_min_succ, List.range'_succ]
    · have h0 : R - a = 0 := by omega
      rw [List.takeWhile_cons]
      simp [ha, h0]

/-- Every recorded run covers only indices that are absent from the cache. -/
def runsMissing (cache : NatMap (List String)) (ranges : List (Nat × Nat)) : Prop :=
  ∀ p ∈ ranges, ∀ k, k < p.2 → cache.lookup (p.1 + k) = none

/-- Invariant of the missing-range scan: all closed runs cover only uncached
indices, and the open run, if any, covers only uncached indices and ends
exactly at the next index to scan. -/
def accInv (cache : NatMap (List String)) (acc : RangeAcc) (next : Nat) : Prop :=
  runsMissing cache acc.ranges ∧
    ∀ st, acc.curStart = some st →
      st + acc.curCount = next ∧ ∀ k, k < acc.curCount → cache.lookup (st + k) = none

theorem rangeStep_inv (cache : NatMap (List String)) (acc : RangeAcc) (i : Nat)
    (h : accInv cache acc i) : accInv cache (rangeStep cache acc i) (i + 1) := by
  cases hc : (cache.lookup i).isSome with
  | true =>
    rcases hst : acc.curStart with _ | st
    · have hstep : rangeStep cache acc i = acc := by
        simp [rangeStep, hc, hst]
      rw [hstep]
      refine ⟨h.1, ?_⟩
      intro st2 hst2
      rw [hst] at hst2
      cases hst2
    · have hstep : rangeStep cache acc i
          = ⟨acc.ranges ++ [(st, acc.curCount)], none, 0⟩ := by
        simp [rangeStep, hc, hst]
      rw [hstep]
      refine ⟨?_, ?_⟩
      · intro p hp k hk
        rcases List.mem_append.mp hp with hp1 | hp2
        · exact h.1 p hp1 k hk
        · have hpe : p = (st, acc.curCount) := by simpa using hp2
          subst hpe
          exact (h.2 st hst).2 k hk
      · intro st2 hst2
        cases hst2
  | false =>
    have hnone : cache.lookup i = none := by
      cases hl : cache.lookup i
      · rfl
      · rw [hl] at hc
        simp at hc
    rcases hst : acc.curStart with _ | st
    · have hstep : rangeStep cache acc i = ⟨acc.ranges, some i, 1⟩ := by
        simp [rangeStep, hc, hst]
      rw [hstep]
      refine ⟨h.1, ?_⟩
      intro st2 hst2
      have hsteq : st2 = i := by simpa using hst2.symm
      subst hsteq
      refine ⟨rfl, ?_⟩
      intro k hk
      have hk0 : k = 0 := by
        simp only at hk
        omega
      subst hk0
      simpa using hnone
    · have hstep : rangeStep cache acc i
          = ⟨acc.ranges, some st, acc.curCount + 1⟩ := by
        simp [rangeStep, hc, hst]
      rw [hstep]
      refine ⟨h.1, ?_⟩
      intro st2 hst2
      have hsteq : st2 = st := by simpa using hst2.symm
      subst hsteq
      have hsum := (h.2 st2 hst).1
      refine ⟨by simp only; omega, ?_⟩
      intro k hk
      by_cases hkc : k < acc.curCount
      · exact (h.2 st2 hst).2 k hkc
      · have hke : k = acc.curCount := by
          simp only at hk
          omega
        subst hke
        rw [hsum]
        exact hnone

theorem foldl_rangeStep_inv (cache : NatMap (List String)) :
    ∀ (n a : Nat) (acc : RangeAcc), accInv cache acc a →
      accInv cache ((List.range' a n).foldl (rangeStep cache) acc) (a + n) := by
  intro n
  induction n with
  | zero => intro a acc h; simpa using h
  | succ n ih =>
    intro a acc h
    rw [List.range'_succ, List.foldl_cons]
    have hnext := ih (a + 1) (rangeStep cache acc a) (rangeStep_inv cache acc a h)
    have harith : a + 1 + n = a + (n + 1) := by omega
    rwa [harith] at hnext

/-- The ranges computed by the window scan cover only indices that were
uncached when the window was scanned: cached rows lying between two runs are
never part of a fetched range. -/
theorem flushRanges_missing (cache : NatMap (List String)) (acc : RangeAcc)
    (next : Nat) (h : accInv cache acc next) :
    runsMissing cache (flushRanges acc) := by
  obtain ⟨ranges, curStart, curCount⟩ := acc
  cases curStart with
  | none => exact h.1
  | some st =>
    intro p hp k hk
    rcases List.mem_append.mp hp with hp1 | hp2
    · exact h.1 p hp1 k hk
    · have hpe : p = (st, curCount) := by simpa using hp2
      subst hpe
      exact (h.2 st rfl).2 k hk

/-- The ranges computed by the window scan cover only indices that were
uncached when the window was scanned: cached rows lying between two runs are
never part of a fetched range. -/
theorem missingRanges_missing (cache : NatMap (List String))
    (start limit rowCount : Nat) :
    ∀ p ∈ missingRanges cache start limit rowCount, ∀ k, k < p.2 →
      cache.lookup (p.1 + k) = none := by
  have h0 : accInv cache ⟨[], none, 0⟩ start := by
    constructor
    · intro p hp
      exact absurd hp (List.not_mem_nil p)
    · intro st hst
      cases hst
  have hwin : windowIndices start limit rowCount
      = List.range' start (min limit (rowCount - start)) :=
    takeWhile_lt_range' rowCount limit start
  have hinv := foldl_rangeStep_inv cache (min limit (rowCount - start)) start
    ⟨[], none, 0⟩ h0
  intro p hp k hk
  unfold missingRanges at hp
  rw [hwin] at hp
  exact flushRanges_missing cache _ _ hinv p hp k hk

theorem missingRanges_rowCount_zero (cache : NatMap (List String))
    (start limit : Nat) : missingRanges cache start limit 0 = [] := by
  unfold missingRanges
  rw [show windowIndices start limit 0 = [] from by
    unfold windowIndices
    rw [takeWhile_lt_range' 0 limit start]
    simp]
  rfl

/-- The fetches issued by one fetchRows invocation are exactly the missing
ranges of the window whose start offset has no fetch already in flight. -/
theorem fetchRows_callList (engine : Nat → Nat → Option (List RowObj))
    (s : StreamState) (start limit : Nat) :
    (fetchRows engine s start limit).2
      = (missingRanges s.rowCache start limit s.rowCount).filter
          (fun r => r.1 ∉ s.inflightChunks) := by
  unfold fetchRows
  split
  · rename_i h0
    rw [h0, missingRanges_rowCount_zero]
    rfl
  · have hfold := (fetchFold_calls engine s.inflightChunks
      (missingRanges s.rowCache start limit s.rowCount) (s, []) rfl).1
    simpa using hfold

/-- The validate-chunk calls issued by the pass do not depend on what the
engine returns: the loop advances by chunkSize regardless of the chunk
results. -/
theorem processValidationChunk_calls_const (vc vc2 : Nat → Nat → List (Nat × Nat))
    (totalRows chunkSize : Nat) :
    ∀ (fuel currentStart : Nat),
      (processValidationChunk vc totalRows chunkSize fuel currentStart).calls
        = (processValidationChunk vc2 totalRows chunkSize fuel currentStart).calls := by
  intro fuel
  induction fuel with
  | zero => intro st; rfl
  | succ fuel ih =>
    intro st
    unfold processValidationChunk
    by_cases hlt : st + chunkSize < totalRows
    · simp only [hlt, if_pos]
      simp [ih (st + chunkSize)]
    · simp [hlt]

/-- With positive chunk size and enough fuel the pass always ends by posting
the completion signal as its final message. -/
theorem processValidationChunk_lastMsg (vc : Nat → Nat → List (Nat × Nat))
    (totalRows chunkSize : Nat) :
    ∀ (fuel currentStart : Nat), 1 ≤ fuel →
      totalRows ≤ currentStart + fuel * chunkSize →
      (processValidationChunk vc totalRows chunkSize fuel currentStart).msgs.getLast?
        = some validationCompleteMsg := by
  intro fuel
  induction fuel with
  | zero =>
    intro st h1 _
    omega
  | succ fuel ih =>
    intro st _ hbound
    unfold processValidationChunk
    by_cases hlt : st + chunkSize < totalRows
    · simp only [hlt, if_pos]
      have hexp : (fuel + 1) * chunkSize = fuel * chunkSize + chunkSize :=
        Nat.succ_mul fuel chunkSize
      have hfuel : 1 ≤ fuel := by
        rcases Nat.eq_zero_or_pos fuel with hf0 | hf1
        · subst hf0
          omega
        · exact hf1
      have hbound2 : totalRows ≤ (st + chunkSize) + fuel * chunkSize := by omega
      have hrest := ih (st + chunkSize) hfuel hbound2
      simp only [List.getLast?_append, hrest]
      rfl
    · simp only [hlt, if_neg]
      simp [List.getLast?_concat]

/-- No message the full pass posts carries any of the progress fields: the
worker only ever posts the per-chunk error map and the bare completion
signal. -/
theorem processValidationChunk_noProgress (vc : Nat → Nat → List (Nat × Nat))
    (totalRows chunkSize : Nat) :
    ∀ (fuel currentStart : Nat),
      ∀ m ∈ (processValidationChunk vc totalRows chunkSize fuel currentStart).msgs,
        m.rowsProcessed = none ∧ m.totalRows = none ∧ m.rowsPerSec = none := by
  intro fuel
  induction fuel with
  | zero => intro st m hm; exact absurd hm (List.not_mem_nil m)
  | succ fuel ih =>
    intro st m hm
    unfold processValidationChunk at hm
    by_cases hlt : st + chunkSize < totalRows
    · simp only [hlt, if_pos] at hm
      rcases List.mem_append.mp hm with h1 | h2
      · by_cases he : 0 < (foldChunkErrors (vc st chunkSize)).length
        · simp only [he, if_pos, List.mem_singleton] at h1
          subst h1
          exact ⟨rfl, rfl, rfl⟩
        · simp only [he, if_neg] at h1
          exact absurd h1 (List.not_mem_nil m)
      · exact ih (st + chunkSize) m h2
    · simp only [hlt, if_neg] at hm
      rcases List.mem_append.mp hm with h1 | h2
      · by_cases he : 0 < (foldChunkErrors (vc st chunkSize)).length
        · simp only [he, if_pos, List.mem_singleton] at h1
          subst h1
          exact ⟨rfl, rfl, rfl⟩
        · simp only [he, if_neg] at h1
          exact absurd h1 (List.not_mem_nil m)
      · have hm2 : m = validationCompleteMsg := by simpa using h2
        subst hm2
        exact ⟨rfl, rfl, rfl⟩

/-! Concrete fixtures used by counterexamples and witnesses. -/

/-- A small concrete hook state in the Studio stage with a two-column schema,
ten rows, and the given cache, error map, pending set and latch value. -/
def exState (cache : NatMap (List String)) (errors : NatMap (List Nat))
    (pending : List Nat) (flag : Bool) : StreamState :=
  { stage := .StudioStage,
    schema := [⟨"id", "integer"⟩, ⟨"email", "text"⟩],
    initialSchema := [⟨"id", "integer"⟩, ⟨"email", "text"⟩],
    rowCount := 10,
    errors := errors,
    pendingValidation := pending,
    dataVersion := 0,
    rowCache := cache,
    inflightChunks := [],
    isBatchValidating := flag }

/-- Engine stub: every validate-column call resolves with no invalid rows. -/
def evEmpty : Nat → String → Option (List Nat) := fun _ _ => some []

/-- Engine stub: every validate-column call is rejected. -/
def evFail : Nat → String → Option (List Nat) := fun _ _ => none

/-- A cache holding rows 3 and 5. -/
def c1cache : NatMap (List String) := [(3, ["3", "a"]), (5, ["5", "b"])]

/-- Engine stub for getRows: the requested number of identical keyed rows. -/
def c2engine : Nat → Nat → Option (List RowObj) :=
  fun _ li => some (List.replicate li [("id", "7")])

/-- Engine stub for validate-chunk: cell (row 0, col 0) of every chunk is
reported invalid. -/
def c3vc : Nat → Nat → List (Nat × Nat) := fun _ _ => [(0, 0)]

/-! The claims. -/

/-- C1, counterexample. The claim says every successful mutation drops the
entire row cache, so every previously cached row index reads absent
afterwards. It is false for updateCell: with rows 3 and 5 cached, a
successful updateCell on row 3 leaves row 5 present in the cache (updateCell
deletes only the edited row, part_002 line 382). -/
theorem C1_counterexample :
    getRow (exState c1cache [] [] false) 5 = some ["5", "b"]
      ∧ getRow (updateCell (some ()) evEmpty (exState c1cache [] [] false) 3 0) 5
          = some ["5", "b"] := by
  decide

/-- C1, amended: after a successful applyCorrection or applySuggestion every
row index reads absent (the whole cache is dropped); after a successful
updateCell only the edited row reads absent, and every other index reads
exactly what it read before. -/
theorem C1_theorem (n : Nat) (ev : Nat → String → Option (List Nat))
    (s : StreamState) (colIdx rowIdx i : Nat) :
    getRow (applyCorrection (some n) ev s colIdx) i = none
    ∧ getRow (applySuggestion (some n) ev s colIdx) i = none
    ∧ getRow (updateCell (some ()) ev s rowIdx colIdx) rowIdx = none
    ∧ (i ≠ rowIdx → getRow (updateCell (some ()) ev s rowIdx colIdx) i = getRow s i) := by
  refine ⟨rfl, rfl, ?_, ?_⟩
  · simp only [updateCell, getRow]
    exact lookup_mapDelete_self _ rowIdx
  · intro hne
    simp only [updateCell, getRow]
    rw [lookup_mapDelete_ne _ _ _ hne, validateColumnsSafe_rowCache]

/-- C1, witness for the amended theorem at a concrete input. -/
theorem C1_witness :
    getRow (updateCell (some ()) evEmpty (exState c1cache [] [] false) 3 0) 5
      = getRow (exState c1cache [] [] false) 5 :=
  (C1_theorem 1 evEmpty (exState c1cache [] [] false) 0 3 5).2.2.2 (by decide)

/-- C2, counterexample. The claim says fetchRows issues exactly one engine
fetch spanning from the lowest to the highest missing index of the window,
re-fetching cached rows in between. With row 1 cached and window of rows
0..2, the code issues two fetches, (0,1) and (2,1), not the single spanning
fetch (0,3). -/
theorem C2_counterexample :
    (fetchRows c2engine (exState [(1, ["1", "x"])] [] [] false) 0 3).2 = [(0, 1), (2, 1)]
      ∧ (fetchRows c2engine (exState [(1, ["1", "x"])] [] [] false) 0 3).2 ≠ [(0, 3)] := by
  decide

/-- C2, amended: fetchRows issues one engine fetch per maximal contiguous run
of uncached indices in the clamped window (skipping a run whose start offset
already has an in-flight fetch), and no issued fetch covers any index that
was cached: cached rows between two runs are not re-fetched. -/
theorem C2_theorem (engine : Nat → Nat → Option (List RowObj)) (s : StreamState)
    (start limit : Nat) :
    (fetchRows engine s start limit).2
        = (missingRanges s.rowCache start limit s.rowCount).filter
            (fun r => r.1 ∉ s.inflightChunks)
      ∧ ∀ p ∈ (fetchRows engine s start limit).2, ∀ k, k < p.2 →
          s.rowCache.lookup (p.1 + k) = none := by
  refine ⟨fetchRows_callList engine s start limit, ?_⟩
  intro p hp k hk
  rw [fetchRows_callList engine s start limit] at hp
  exact missingRanges_missing s.rowCache start limit s.rowCount p
    (List.mem_of_mem_filter hp) k hk

/-- C2, witness for the amended theorem at a concrete input. -/
theorem C2_witness :
    (exState [(1, ["1", "x"])] [] [] false).rowCache.lookup (0 + 0) = none :=
  (C2_theorem c2engine (exState [(1, ["1", "x"])] [] [] false) 0 3).2
    (0, 1) (by decide) 0 (by decide)

/-- C4, counterexample. The claim says a targeted-pass request dropped by the
single-flight guard does not remove columns from the Pending Validation Set.
In the code, runBatchValidation awaits validateColumnsSafe and then
unconditionally resets the pending set (part_002 line 287): with the latch
held, the request is dropped (no engine call is issued) and yet pending
column 2 is removed. -/
theorem C4_counterexample :
    (runBatchValidation evEmpty (exState [] [] [2] true)).2 = []
      ∧ (runBatchValidation evEmpty (exState [] [] [2] true)).1.pendingValidation = [] := by
  decide

/-- C4, amended: runBatchValidation always leaves the Pending Validation Set
empty when it returns, even when the targeted pass was dropped by the
single-flight guard (in which case no engine call was issued at all); removal
is not conditioned on a successful revalidation. -/
theorem C4_theorem (ev : Nat → String → Option (List Nat)) (s : StreamState) :
    (runBatchValidation ev s).1.pendingValidation = []
      ∧ (s.isBatchValidating = true → (runBatchValidation ev s).2 = []) := by
  constructor
  · unfold runBatchValidation
    split
    · rename_i h
      exact List.length_eq_zero.mp h
    · rfl
  · intro hflag
    unfold runBatchValidation
    split
    · rfl
    · simp [validateColumnsSafe_dropped ev s _ hflag]

/-- C4, witness for the amended theorem at a concrete input. -/
theorem C4_witness :
    (runBatchValidation evFail (exState [] [] [0, 1] true)).1.pendingValidation = []
      ∧ (runBatchValidation evFail (exState [] [] [0, 1] true)).2 = [] :=
  ⟨(C4_theorem evFail (exState [] [] [0, 1] true)).1,
    (C4_theorem evFail (exState [] [] [0, 1] true)).2 rfl⟩

/-- C9: the Data Version Token increases by exactly 1 on each successful
mutation (applyCorrection, applySuggestion, updateCell), is unchanged when
the mutation call is rejected, and is never changed by row fetches or column
validations (fetchRows, validateColumnsSafe, runBatchValidation). -/
theorem C9_theorem (ev : Nat → String → Option (List Nat)) (s : StreamState)
    (n colIdx rowIdx start limit : Nat) (cols : List Nat)
    (engine : Nat → Nat → Option (List RowObj)) :
    (applyCorrection (some n) ev s colIdx).dataVersion = s.dataVersion + 1
    ∧ (applySuggestion (some n) ev s colIdx).dataVersion = s.dataVersion + 1
    ∧ (updateCell (some ()) ev s rowIdx colIdx).dataVersion = s.dataVersion + 1
    ∧ (applyCorrection none ev s colIdx).dataVersion = s.dataVersion
    ∧ (applySuggestion none ev s colIdx).dataVersion = s.dataVersion
    ∧ (updateCell none ev s rowIdx colIdx).dataVersion = s.dataVersion
    ∧ (fetchRows engine s start limit).1.dataVersion = s.dataVersion
    ∧ (validateColumnsSafe ev s cols).1.dataVersion = s.dataVersion
    ∧ (runBatchValidation ev s).1.dataVersion = s.dataVersion := by
  refine ⟨?_, ?_, ?_, rfl, rfl, rfl,
    fetchRows_dataVersion engine s start limit,
    validateColumnsSafe_dataVersion ev s cols,
    runBatchValidation_dataVersion ev s⟩
  · simp only [applyCorrection]
    rw [validateColumnsSafe_dataVersion]
  · simp only [applySuggestion]
    rw [validateColumnsSafe_dataVersion]
  · simp only [updateCell]
    rw [validateColumnsSafe_dataVersion]

/-- C10: an invocation of validateColumnsSafe that acquires the single-flight
latch always leaves it released when it returns, whatever the engine
outcomes, including when every per-column call is rejected: targeted
validation is never permanently blocked by a past failure. -/
theorem C10_theorem (ev : Nat → String → Option (List Nat)) (s : StreamState)
    (cols : List Nat) (h : s.isBatchValidating = false) :
    (validateColumnsSafe ev s cols).1.isBatchValidating = false :=
  validateColumnsSafe_released ev s cols h

/-- C10, witness: a batch in which every engine call fails still releases the
latch. -/
theorem C10_witness :
    (validateColumnsSafe evFail (exState [] [(0, [3])] [0] false) [0, 1]).1.isBatchValidating
      = false :=
  C10_theorem evFail (exState [] [(0, [3])] [0] false) [0, 1] rfl

/-- C3: during the full validation pass the worker never publishes any
message carrying rowsProcessed, totalRows or rowsPerSec. It posts only the
per-chunk VALIDATION_UPDATE error map (and only when the chunk had
violations) and the bare VALIDATION_COMPLETE signal. This contradicts the
claim (and docs/PLAN_CHECKLIST.md, which marks the per-chunk
VALIDATION_PROGRESS message as implemented, and App.tsx, which renders those
fields): the code posts no progress update after any chunk. -/
theorem C3_theorem (vc : Nat → Nat → List (Nat × Nat)) (totalRows chunkSize : Nat) :
    ∀ m ∈ (runValidationPass vc totalRows chunkSize).msgs,
      m.rowsProcessed = none ∧ m.totalRows = none ∧ m.rowsPerSec = none :=
  processValidationChunk_noProgress vc totalRows chunkSize (totalRows + 1) 0

/-- C3, witness: the message actually posted for the first chunk of a
120-row, 50-row-chunk pass carries none of the progress fields. -/
theorem C3_witness :
    (validationUpdateMsg [(0, [0])]).rowsProcessed = none
      ∧ (validationUpdateMsg [(0, [0])]).totalRows = none
      ∧ (validationUpdateMsg [(0, [0])]).rowsPerSec = none :=
  C3_theorem c3vc 120 50 (validationUpdateMsg [(0, [0])]) (by decide)

/-- C5, counterexample. The claim says that after a targeted batch the Error
Map reflects the engine latest per-column results for every requested column.
With column 1 currently mapped to invalid rows [5] (its most recent known
validation result) and a batch over [1] in which the engine call is rejected,
the commit deletes the column 1 entry outright: the map afterwards shows no
errors for column 1 instead of any engine result. -/
theorem C5_counterexample :
    (exState [] [(1, [5])] [] false).errors.lookup 1 = some [5]
      ∧ (validateColumnsSafe evFail (exState [] [(1, [5])] [] false) [1]).2 = [(1, "text")]
      ∧ (validateColumnsSafe evFail (exState [] [(1, [5])] [] false) [1]).1.errors.lookup 1
          = none := by
  decide

/-- C5, amended: for an acquired batch over duplicate-free columns, every
observable value of the error map before the batch returns equals the
pre-batch map (the staged replacements are applied as one atomic commit), the
last observation is the committed map, the committed map holds the fresh
engine result for every requested in-schema column whose call resolved with a
nonempty invalid set and no entry for one whose call resolved empty or was
rejected (a rejected column loses its previous entry), and columns outside
the request keep their previous entries. -/
theorem C5_theorem (ev : Nat → String → Option (List Nat)) (s : StreamState)
    (cols : List Nat) (hflag : s.isBatchValidating = false) (hnd : cols.Nodup) :
    (∀ m ∈ (batchErrorTrace ev s cols).dropLast, m = s.errors)
    ∧ (batchErrorTrace ev s cols).getLast?
        = some (validateColumnsSafe ev s cols).1.errors
    ∧ (∀ c ∈ cols, ∀ col, s.schema.get? c = some col →
        (validateColumnsSafe ev s cols).1.errors.lookup c
          = match ev c col.detected_type with
            | some invalid => if 0 < invalid.length then some invalid else none
            | none => none)
    ∧ (∀ c, c ∉ cols →
        (validateColumnsSafe ev s cols).1.errors.lookup c = s.errors.lookup c) := by
  have herr : (validateColumnsSafe ev s cols).1.errors
      = commitErrors s.errors cols (stageColumns ev s.schema cols [] []).1 := by
    simp [validateColumnsSafe, hflag]
  have htrace : batchErrorTrace ev s cols
      = (cols.filterMap (fun c => (s.schema.get? c).map (fun _ => s.errors)))
          ++ [(validateColumnsSafe ev s cols).1.errors] := by
    simp [batchErrorTrace, hflag]
  refine ⟨?_, ?_, ?_, ?_⟩
  · intro m hm
    rw [htrace, List.dropLast_concat] at hm
    rcases List.mem_filterMap.mp hm with ⟨c, _, heq⟩
    rcases hg : s.schema.get? c with _ | col
    · rw [hg] at heq
      cases heq
    · rw [hg] at heq
      simpa using heq.symm
  · rw [htrace, List.getLast?_concat]
  · intro c hc col hcol
    rw [herr]
    unfold commitErrors
    have hbase : ((cols.foldl mapDelete s.errors).lookup c) = none := by
      rw [foldlDelete_lookup]
      simp [hc]
    have hres := stageColumns_lookup_mem ev s.schema c col cols [] [] hnd hc hcol
    have hknd := stageColumns_keys_nodup ev s.schema cols [] [] (by simp)
    rcases hev : ev c col.detected_type with _ | invalid
    · rw [hev] at hres
      simp only
      rw [foldlSet_lookup_of_none c _ _ (by simpa using hres), hbase]
    · rw [hev] at hres
      by_cases hlen : 0 < invalid.length
      · simp only [hlen, if_pos] at hres ⊢
        exact foldlSet_lookup_of_some c invalid _ _ hknd hres
      · simp only [hlen, if_neg] at hres ⊢
        rw [foldlSet_lookup_of_none c _ _ (by simpa using hres), hbase]
        simp
  · intro c hc
    rw [herr]
    unfold commitErrors
    have hres := stageColumns_lookup_not_mem ev s.schema c cols [] [] hc
    rw [foldlSet_lookup_of_none c _ _ (by simpa using hres), foldlDelete_lookup]
    simp [hc]

/-- C5, witness for the amended theorem at a concrete input: a resolved
column gets its fresh result, an unrequested column keeps its entry. -/
theorem C5_witness :
    (validateColumnsSafe (fun _ _ => some [4]) (exState [] [(0, [9])] [] false) [1]).1.errors.lookup 1
        = some [4]
      ∧ (validateColumnsSafe (fun _ _ => some [4]) (exState [] [(0, [9])] [] false) [1]).1.errors.lookup 0
        = some [9] := by
  have h := C5_theorem (fun _ _ => some [4]) (exState [] [(0, [9])] [] false) [1]
    rfl (by decide)
  constructor
  · have h2 := h.2.2.1 1 (by decide) ⟨"email", "text"⟩ (by decide)
    simpa using h2
  · exact h.2.2.2 0 (by decide)

theorem filterMap_schema_calls_fst (schema : List ColumnSchema) :
    ∀ (cols : List Nat), (∀ c ∈ cols, c < schema.length) →
      ((cols.filterMap
          (fun c => (schema.get? c).map (fun col => (c, col.detected_type)))).map
        Prod.fst) = cols := by
  intro cols
  induction cols with
  | nil => intro _; rfl
  | cons c rest ih =>
    intro hvalid
    have hc : c < schema.length := hvalid c (List.mem_cons_self c rest)
    obtain ⟨col, hcol⟩ : ∃ col, schema.get? c = some col := by
      rcases hg : schema.get? c with _ | col
      · exact absurd (List.get?_eq_none.mp hg) (by omega)
      · exact ⟨col, rfl⟩
    have hcol2 : schema[c]? = some col := by
      rw [← List.get?_eq_getElem?]
      exact hcol
    have hrest := ih (fun x hx => hvalid x (List.mem_cons_of_mem c hx))
    simp only [List.get?_eq_getElem?] at hrest
    simp [List.filterMap_cons, hcol2, hrest]

/-- C6: with the single-flight latch free, a targeted batch over a
duplicate-free list of in-schema columns issues exactly one validate-column
engine call per requested column, in order; and any targeted request made
while the latch is held (as it is for the whole extent of the first batch) is
dropped: it changes no state and issues no engine call. Hence during the
overlap the engine receives exactly one validate-column call per column of
the first request. -/
theorem C6_theorem (ev : Nat → String → Option (List Nat)) (s : StreamState)
    (cols1 : List Nat) (hflag : s.isBatchValidating = false) (hnd : cols1.Nodup)
    (hvalid : ∀ c ∈ cols1, c < s.schema.length) :
    ((validateColumnsSafe ev s cols1).2.map Prod.fst = cols1)
    ∧ (∀ c ∈ cols1, ((validateColumnsSafe ev s cols1).2.map Prod.fst).count c = 1)
    ∧ (∀ (evB : Nat → String → Option (List Nat)) (t : StreamState) (cols2 : List Nat),
        t.isBatchValidating = true → validateColumnsSafe evB t cols2 = (t, [])) := by
  have hcalls : (validateColumnsSafe ev s cols1).2
      = cols1.filterMap (fun c => (s.schema.get? c).map (fun col => (c, col.detected_type))) := by
    have h1 : (validateColumnsSafe ev s cols1).2 = (stageColumns ev s.schema cols1 [] []).2 := by
      simp [validateColumnsSafe, hflag]
    rw [h1, stageColumns_calls]
    rfl
  have hfst : (validateColumnsSafe ev s cols1).2.map Prod.fst = cols1 := by
    rw [hcalls]
    exact filterMap_schema_calls_fst s.schema cols1 hvalid
  refine ⟨hfst, ?_, ?_⟩
  · intro c hc
    rw [hfst]
    exact List.count_eq_one_of_mem hnd hc
  · intro evB t cols2 ht
    exact validateColumnsSafe_dropped evB t cols2 ht

/-- C6, witness: concrete two-column batch issues one call per column; a
request under a held latch is a no-op. -/
theorem C6_witness :
    ((validateColumnsSafe evEmpty (exState [] [] [] false) [0, 1]).2.map Prod.fst = [0, 1])
      ∧ validateColumnsSafe evEmpty (exState [] [] [] true) [1] = (exState [] [] [] true, []) := by
  have h := C6_theorem evEmpty (exState [] [] [] false) [0, 1] rfl (by decide) (by decide)
  exact ⟨h.1, h.2.2 evEmpty (exState [] [] [] true) [1] rfl⟩

theorem spec_chunks_union (invalid : Nat → Nat → Bool) (numCols : Nat) :
    spec_validate_chunk invalid 120 numCols 0 50
        ++ spec_validate_chunk invalid 120 numCols 50 50
        ++ spec_validate_chunk invalid 120 numCols 100 50
      = spec_validate_chunk invalid 120 numCols 0 120 := by
  unfold spec_validate_chunk
  have h1 : (List.range' 0 50).filter (fun r => r < 120) = List.range' 0 50 := by decide
  have h2 : (List.range' 50 50).filter (fun r => r < 120) = List.range' 50 50 := by decide
  have h3 : (List.range' 100 50).filter (fun r => r < 120) = List.range' 100 20 := by decide
  have h4 : (List.range' 0 120).filter (fun r => r < 120) = List.range' 0 120 := by decide
  rw [h1, h2, h3, h4, ← List.flatMap_append, ← List.flatMap_append]
  congr 1

/-- C7, counterexample. The claim says the three chunk calls have sizes 50,
50 and 20 and that the completion signal reports rowsProcessed = 120. The
worker passes limit = chunkSize on every call, so the third call is
(100, 50), not size 20 (the engine clamps it to the 20 remaining rows); and
VALIDATION_COMPLETE carries no payload, so no posted message reports
rowsProcessed = 120. -/
theorem C7_counterexample :
    ((runValidationPass (spec_validate_chunk (fun _ _ => false) 120 1) 120 50).calls.map
        Prod.snd = [50, 50, 50])
      ∧ ((runValidationPass (spec_validate_chunk (fun _ _ => false) 120 1) 120 50).calls.map
          Prod.snd ≠ [50, 50, 20])
      ∧ (∀ m ∈ (runValidationPass (spec_validate_chunk (fun _ _ => false) 120 1) 120 50).msgs,
          m.rowsProcessed ≠ some 120) := by
  decide

/-- C7, amended: for 120 rows and chunk size 50, the pass issues exactly the
three chunk calls (0,50), (50,50), (100,50); the concatenation of the
violation pairs the engine reports for those three chunks (the engine clamps
a chunk to the rows that exist) equals what a single validation of all 120
rows reports; and the final posted message is the completion signal, which
carries no rowsProcessed count. -/
theorem C7_theorem (invalid : Nat → Nat → Bool) (numCols : Nat) :
    ((runValidationPass (spec_validate_chunk invalid 120 numCols) 120 50).calls
        = [(0, 50), (50, 50), (100, 50)])
      ∧ (spec_validate_chunk invalid 120 numCols 0 50
            ++ spec_validate_chunk invalid 120 numCols 50 50
            ++ spec_validate_chunk invalid 120 numCols 100 50
          = spec_validate_chunk invalid 120 numCols 0 120)
      ∧ ((runValidationPass (spec_validate_chunk invalid 120 numCols) 120 50).msgs.getLast?
          = some validationCompleteMsg)
      ∧ validationCompleteMsg.rowsProcessed = none := by
  refine ⟨?_, spec_chunks_union invalid numCols, ?_, rfl⟩
  · show (processValidationChunk (spec_validate_chunk invalid 120 numCols) 120 50
        (120 + 1) 0).calls = [(0, 50), (50, 50), (100, 50)]
    rw [processValidationChunk_calls_const (spec_validate_chunk invalid 120 numCols)
      (fun _ _ => []) 120 50 (120 + 1) 0]
    decide
  · show (processValidationChunk (spec_validate_chunk invalid 120 numCols) 120 50
        (120 + 1) 0).msgs.getLast? = some validationCompleteMsg
    exact processValidationChunk_lastMsg (spec_validate_chunk invalid 120 numCols)
      120 50 (120 + 1) 0 (by omega) (by omega)

/-- C8: the stage machine reaches Studio from Processing exactly on the
VALIDATION_COMPLETE worker message; no event other than an explicit UI action
or VALIDATION_COMPLETE ever changes the stage; and for every full pass with a
positive chunk size the completion signal is the final message posted, after
the last chunk. -/
theorem C8_theorem :
    (∀ e, stageStep .ProcessingStage e = .StudioStage ↔ e = .workerValidationComplete)
    ∧ (∀ (st : AppStage) (e : HookEvent), isUiEvent e = false →
        stageStep st e ≠ st → e = .workerValidationComplete)
    ∧ (∀ (vc : Nat → Nat → List (Nat × Nat)) (totalRows chunkSize : Nat),
        0 < chunkSize →
        (runValidationPass vc totalRows chunkSize).msgs.getLast?
          = some validationCompleteMsg) := by
  refine ⟨?_, ?_, ?_⟩
  · intro e
    cases e <;> simp [stageStep]
  · intro st e hui hne
    cases e <;> simp_all [stageStep, isUiEvent]
  · intro vc totalRows chunkSize hC
    show (processValidationChunk vc totalRows chunkSize (totalRows + 1) 0).msgs.getLast?
      = some validationCompleteMsg
    apply processValidationChunk_lastMsg vc totalRows chunkSize (totalRows + 1) 0 (by omega)
    have := Nat.le_mul_of_pos_right (totalRows + 1) hC
    omega

/-- C8, witness at concrete inputs: the completion event alone moves
Processing to Studio, and a 120-row pass ends with the completion signal. -/
theorem C8_witness :
    stageStep .ProcessingStage .workerValidationComplete = .StudioStage
      ∧ (runValidationPass c3vc 120 50).msgs.getLast? = some validationCompleteMsg :=
  ⟨(C8_theorem.1 .workerValidationComplete).mpr rfl,
    C8_theorem.2.2 c3vc 120 50 (by decide)⟩

end LocalZero
